import Mathlib

/-!
Verification of the pure comparison/diff core of a document-comparison app.

The source (src/App.tsx) contains four pure functions invoked from UI
handlers:

* `compareAccountNumbers` — normalized account-number matching,
* `calculateLevenshteinDistance` — DP edit distance,
* `fuzzyMatch` — similarity thresholding on Levenshtein distance,
* `diffStrings` — an LCS-based character diff producing coalesced spans,

plus a per-field dispatch in `handleProcessMultiFile` choosing the rule and
tolerance per field kind.  Strings are modelled as `List Char`; JavaScript
numbers appearing in similarity arithmetic are modelled as `ℚ`.
-/

namespace BankDoc

/-- A character is an ASCII letter or digit (the class `[A-Z0-9]` with the
case-insensitive flag, i.e. what `replace(/[^A-Z0-9]/gi, '')` keeps). -/
def isAsciiAlnum (c : Char) : Bool :=
  (('A' ≤ c && c ≤ 'Z') || ('a' ≤ c && c ≤ 'z') || ('0' ≤ c && c ≤ '9'))

/-- Normalization inside `compareAccountNumbers`:
`acc.replace(/[^A-Z0-9]/gi, '').toUpperCase()`. -/
def normAccount (acc : List Char) : List Char :=
  (acc.filter isAsciiAlnum).map Char.toUpper

/-- `longer.endsWith(shorter)` on JS strings. -/
def endsWith (longer shorter : List Char) : Bool :=
  decide (shorter <:+ longer)

/--
Embeds `compareAccountNumbers` (src/App.tsx lines 69–77):

```
if (!acc1 || !acc2) return false;
const norm1 = acc1.replace(/[^A-Z0-9]/gi, '').toUpperCase();
const norm2 = acc2.replace(/[^A-Z0-9]/gi, '').toUpperCase();
if (norm1.length === 0 || norm2.length === 0) return false;
if (norm1 === norm2) return true;
const [shorter, longer] = norm1.length < norm2.length ? [norm1, norm2] : [norm2, norm1];
return longer.endsWith(shorter);
```

The final `[shorter, longer]` destructuring is inlined: the conditional is
distributed over the single `endsWith` use of the pair.
-/
def compareAccountNumbers (acc1 acc2 : List Char) : Bool :=
  if acc1 = [] ∨ acc2 = [] then false
  else if (normAccount acc1).length = 0 ∨ (normAccount acc2).length = 0 then false
  else if normAccount acc1 = normAccount acc2 then true
  else if (normAccount acc1).length < (normAccount acc2).length then
    endsWith (normAccount acc2) (normAccount acc1)
  else
    endsWith (normAccount acc1) (normAccount acc2)

/--
Denotation of one cell of the Levenshtein DP matrix built by
`calculateLevenshteinDistance` (src/App.tsx lines 82–90): `levCell a b i j`
is the value the code stores in `matrix[j][i]` (distance between the first
`i` characters of `a` and the first `j` characters of `b`).  Row 0 is
`0,1,…`, column 0 is `0,1,…`, and the interior recurrence is
`min(matrix[j][i-1] + 1, matrix[j-1][i] + 1, matrix[j-1][i-1] + indicator)`
with `indicator = a[i-1] === b[j-1] ? 0 : 1`.
-/
def levCell (a b : List Char) : Nat → Nat → Nat
  | 0, j => j
  | i + 1, 0 => i + 1
  | i + 1, j + 1 =>
    let indicator : Nat := if a.getD i 'a' = b.getD j 'a' then 0 else 1
    min (levCell a b i (j + 1) + 1)
      (min (levCell a b (i + 1) j + 1) (levCell a b i j + indicator))
  termination_by i j => i + j

/--
Embeds `calculateLevenshteinDistance` (src/App.tsx lines 79–92): the early
returns for an empty argument, then the bottom-right cell of the DP matrix.
-/
def calculateLevenshteinDistance (a b : List Char) : Nat :=
  if a.length = 0 then b.length
  else if b.length = 0 then a.length
  else levCell a b a.length b.length

/--
Embeds `fuzzyMatch` (src/App.tsx lines 94–102); the tolerance and the
similarity arithmetic are modelled over `ℚ`.
-/
def fuzzyMatch (str1 str2 : List Char) (tolerance : ℚ) : Bool :=
  if str1 = [] ∧ str2 = [] then true
  else if str1 = [] ∨ str2 = [] then false
  else
    let distance := calculateLevenshteinDistance str1 str2
    let maxLength := max str1.length str2.length
    if maxLength = 0 then true
    else
      let similarity : ℚ := 1 - (distance : ℚ) / (maxLength : ℚ)
      decide (similarity ≥ tolerance)

/-- A diff span as produced by `diffStrings`: a run of characters with the
optional `added` / `removed` flags (an absent flag in the JS object is
modelled as `false`). -/
structure DiffSpan where
  value : List Char
  added : Bool
  removed : Bool
  deriving Repr, DecidableEq

/--
Denotation of one cell of the LCS DP matrix built by `diffStrings`
(src/App.tsx lines 108–118): `lcsLen o n i j` is the value stored in
`matrix[i][j]` (the LCS length of the first `i` characters of `o` and the
first `j` characters of `n`).  Row 0 and column 0 are 0 (the `fill(0)`
initialization); the interior recurrence is `matrix[i-1][j-1] + 1` when
`o[i-1] === n[j-1]` and `max(matrix[i-1][j], matrix[i][j-1])` otherwise.
-/
def lcsLen (o n : List Char) : Nat → Nat → Nat
  | 0, _ => 0
  | _ + 1, 0 => 0
  | i + 1, j + 1 =>
    if o.getD i 'a' = n.getD j 'a' then lcsLen o n i j + 1
    else max (lcsLen o n i (j + 1)) (lcsLen o n (i + 1) j)
  termination_by i j => i + j

/--
Embeds the back-trace loop of `diffStrings` (src/App.tsx lines 120–134).
The loop runs `(i, j)` down from `(oldChars.length, newChars.length)` to
`(0, 0)`, `unshift`-ing a single-character span at each step, so the final
array lists the emitted spans in ascending position order — which is what
the `++ [·]` after each recursive call produces here.  The three guards are
those of the source: equal trailing characters give an unchanged span;
otherwise `j > 0 && (i === 0 || matrix[i][j-1] >= matrix[i-1][j])` gives an
added span; otherwise (`i > 0 && (j === 0 || matrix[i][j-1] < matrix[i-1][j])`,
which is forced when the other two guards fail) a removed span.
-/
def backtrace (o n : List Char) : Nat → Nat → List DiffSpan
  | 0, 0 => []
  | 0, j + 1 => backtrace o n 0 j ++ [⟨[n.getD j 'a'], true, false⟩]
  | i + 1, 0 => backtrace o n i 0 ++ [⟨[o.getD i 'a'], false, true⟩]
  | i + 1, j + 1 =>
    if o.getD i 'a' = n.getD j 'a' then
      backtrace o n i j ++ [⟨[o.getD i 'a'], false, false⟩]
    else if lcsLen o n (i + 1) j ≥ lcsLen o n i (j + 1) then
      backtrace o n (i + 1) j ++ [⟨[n.getD j 'a'], true, false⟩]
    else
      backtrace o n i (j + 1) ++ [⟨[o.getD i 'a'], false, true⟩]
  termination_by i j => i + j

/--
Embeds the coalescing loop of `diffStrings` (src/App.tsx lines 136–147):
consecutive spans whose `added` and `removed` flags both agree are merged by
concatenating their values.
-/
def coalesce : List DiffSpan → List DiffSpan
  | [] => []
  | [s] => [s]
  | s :: t :: rest =>
    if s.added = t.added ∧ s.removed = t.removed then
      coalesce (⟨s.value ++ t.value, s.added, s.removed⟩ :: rest)
    else
      s :: coalesce (t :: rest)
  termination_by l => l.length

/-- Embeds `diffStrings` (src/App.tsx lines 105–148): build the LCS matrix,
back-trace, and coalesce. -/
def diffStrings (oldStr newStr : List Char) : List DiffSpan :=
  coalesce (backtrace oldStr newStr oldStr.length newStr.length)

/-- The field keys of `ExtractedData` (src/types.ts). -/
inductive FieldKey
  | beneficiaryName | accountNumber | swiftCode | city | address | bankName
  | goodsDescription
  deriving Repr, DecidableEq

/-- The characters kept by the default normalization: everything outside the
character class `[\s.-]` (whitespace, dot, hyphen). -/
def keepOther (c : Char) : Bool :=
  !(c.isWhitespace || c = '.' || c = '-')

/-- The default normalization in the comparison dispatch
(src/App.tsx line 454): `val.toLowerCase().replace(/[\s.-]/g, '')`. -/
def normOther (val : List Char) : List Char :=
  (val.map Char.toLower).filter keepOther

/--
Embeds the per-field match computation of `handleProcessMultiFile`
(src/App.tsx lines 447–456): fuzzy match with tolerance 0.7 for
`beneficiaryName`/`bankName`, 0.8 for `goodsDescription`, account-number
comparison for `accountNumber`, and lower-cased
whitespace/dot/hyphen-stripped equality otherwise.
-/
def fieldMatch (key : FieldKey) (val1 val2 : List Char) : Bool :=
  if key = .beneficiaryName ∨ key = .bankName then fuzzyMatch val1 val2 (7 / 10)
  else if key = .goodsDescription then fuzzyMatch val1 val2 (8 / 10)
  else if key = .accountNumber then compareAccountNumbers val1 val2
  else decide (normOther val1 = normOther val2)

/-! ### Account-number comparison: claims C2 and C10 -/

/-- C2's description of the account matching rule, written from the spec's
words (normalize both sides; reject if either normalized value is empty;
accept if equal; otherwise accept iff the longer normalized value ends with
the shorter one). -/
def accountMatchSpec (acc1 acc2 : List Char) : Bool :=
  if normAccount acc1 = [] ∨ normAccount acc2 = [] then false
  else if normAccount acc1 = normAccount acc2 then true
  else if (normAccount acc1).length < (normAccount acc2).length then
    endsWith (normAccount acc2) (normAccount acc1)
  else
    endsWith (normAccount acc1) (normAccount acc2)

lemma endsWith_false_of_ne_of_length_eq {l1 l2 : List Char} (hne : l1 ≠ l2)
    (hlen : l1.length = l2.length) : endsWith l1 l2 = false := by
  simp only [endsWith, decide_eq_false_iff_not]
  intro hsuf
  exact hne (hsuf.eq_of_length (hlen ▸ rfl)).symm

/-- **C2** — `compareAccountNumbers` implements the normalize / reject-empty /
equality / longer-ends-with-shorter rule, is `false` whenever the first
argument is empty, and accepts the `"001234567"` vs `"1234567"` example. -/
theorem compareAccountNumbers_spec :
    (∀ acc1 acc2, compareAccountNumbers acc1 acc2 = accountMatchSpec acc1 acc2)
    ∧ (∀ acc2, compareAccountNumbers [] acc2 = false)
    ∧ compareAccountNumbers "001234567".toList "1234567".toList = true := by
  refine ⟨fun acc1 acc2 => ?_, fun acc2 => ?_, by decide⟩
  · unfold compareAccountNumbers accountMatchSpec
    by_cases h1 : acc1 = [] ∨ acc2 = []
    · rw [if_pos h1]
      have hn : normAccount acc1 = [] ∨ normAccount acc2 = [] := by
        rcases h1 with h | h
        · exact Or.inl (by simp [h, normAccount])
        · exact Or.inr (by simp [h, normAccount])
      simp [hn]
    · rw [if_neg h1]
      simp only [List.length_eq_zero]
  · simp [compareAccountNumbers]

/-- **C10** — `compareAccountNumbers` is symmetric in its two arguments. -/
theorem compareAccountNumbers_comm :
    ∀ a b, compareAccountNumbers a b = compareAccountNumbers b a := by
  intro a b
  unfold compareAccountNumbers
  by_cases h1 : a = [] ∨ b = []
  · rw [if_pos h1, if_pos h1.symm]
  · rw [if_neg h1, if_neg (show ¬(b = [] ∨ a = []) from fun h => h1 h.symm)]
    by_cases h2 : (normAccount a).length = 0 ∨ (normAccount b).length = 0
    · rw [if_pos h2, if_pos h2.symm]
    · rw [if_neg h2,
        if_neg (show ¬((normAccount b).length = 0 ∨ (normAccount a).length = 0)
          from fun h => h2 h.symm)]
      by_cases h3 : normAccount a = normAccount b
      · rw [if_pos h3, if_pos h3.symm]
      · rw [if_neg h3,
          if_neg (show ¬(normAccount b = normAccount a) from fun h => h3 h.symm)]
        rcases lt_trichotomy (normAccount a).length (normAccount b).length
          with h4 | h4 | h4
        · rw [if_pos h4, if_neg (by omega)]
        · rw [if_neg (by omega), if_neg (by omega),
            endsWith_false_of_ne_of_length_eq h3 h4,
            endsWith_false_of_ne_of_length_eq (fun h => h3 h.symm) h4.symm]
        · rw [if_neg (by omega), if_pos h4]

/-! ### Levenshtein distance and fuzzy matching: claims C8, C9, C3 -/

lemma levCell_symm_aux (a b : List Char) :
    ∀ N i j, i + j ≤ N → levCell a b i j = levCell b a j i := by
  intro N
  induction N with
  | zero =>
    intro i j h
    obtain ⟨rfl, rfl⟩ : i = 0 ∧ j = 0 := by omega
    simp [levCell]
  | succ N ih =>
    intro i j h
    match i, j with
    | 0, 0 => simp [levCell]
    | 0, j + 1 => simp [levCell]
    | i + 1, 0 => simp [levCell]
    | i + 1, j + 1 =>
      simp only [levCell]
      rw [ih i (j + 1) (by omega), ih (i + 1) j (by omega), ih i j (by omega)]
      by_cases hc : a.getD i 'a' = b.getD j 'a'
      · rw [if_pos hc, if_pos hc.symm]
        omega
      · rw [if_neg hc,
          if_neg (show ¬(b.getD j 'a' = a.getD i 'a') from fun h => hc h.symm)]
        omega

lemma levCell_symm (a b : List Char) (i j : Nat) :
    levCell a b i j = levCell b a j i :=
  levCell_symm_aux a b (i + j) i j le_rfl

/-- **C8** — `calculateLevenshteinDistance` is symmetric. -/
theorem calculateLevenshteinDistance_comm :
    ∀ a b : List Char,
      calculateLevenshteinDistance a b = calculateLevenshteinDistance b a := by
  intro a b
  unfold calculateLevenshteinDistance
  by_cases ha : a.length = 0 <;> by_cases hb : b.length = 0 <;>
    simp [ha, hb, levCell_symm a b]

lemma levCell_diag (a : List Char) : ∀ i, levCell a a i i = 0 := by
  intro i
  induction i with
  | zero => simp [levCell]
  | succ i ih =>
    simp only [levCell, ih, if_true]
    omega

lemma calcLev_self (s : List Char) : calculateLevenshteinDistance s s = 0 := by
  unfold calculateLevenshteinDistance
  by_cases h : s.length = 0 <;> simp [h, levCell_diag]

/-- **C9** — `fuzzyMatch s s t` holds for every string `s` and every
tolerance `t ≤ 1`. -/
theorem fuzzyMatch_self (s : List Char) (t : ℚ) (ht : t ≤ 1) :
    fuzzyMatch s s t = true := by
  unfold fuzzyMatch
  by_cases hs : s = []
  · simp [hs]
  · have hlen : s.length ≠ 0 := fun h => hs (List.length_eq_zero.mp h)
    rw [if_neg (fun h => hs h.1), if_neg (by intro h; rcases h with h | h <;> exact hs h)]
    simp only [calcLev_self, max_self, hlen, if_false, Nat.cast_zero, zero_div,
      sub_zero, ge_iff_le, decide_eq_true_eq]
    exact ht

/-- Witness for C9 at `s = "abc"`, `t = 7/10`. -/
theorem fuzzyMatch_self_witness :
    (7 / 10 : ℚ) ≤ 1 ∧ fuzzyMatch "abc".toList "abc".toList (7 / 10) = true :=
  ⟨by norm_num, fuzzyMatch_self "abc".toList (7 / 10) (by norm_num)⟩

/-- **C3** — `fuzzyMatch` is true on two empty strings, false when exactly
one is empty, and otherwise decides
`1 - distance / max(len1, len2) ≥ tolerance` with the distance taken from
`calculateLevenshteinDistance`. -/
theorem fuzzyMatch_spec (str1 str2 : List Char) (t : ℚ) :
    (str1 = [] ∧ str2 = [] → fuzzyMatch str1 str2 t = true)
    ∧ (str1 = [] ∧ str2 ≠ [] ∨ str1 ≠ [] ∧ str2 = [] →
        fuzzyMatch str1 str2 t = false)
    ∧ (str1 ≠ [] → str2 ≠ [] →
        (fuzzyMatch str1 str2 t = true ↔
          (1 : ℚ) - (calculateLevenshteinDistance str1 str2 : ℚ) /
              (max str1.length str2.length : ℚ) ≥ t)) := by
  refine ⟨fun h => ?_, fun h => ?_, fun h1 h2 => ?_⟩
  · simp [fuzzyMatch, h.1, h.2]
  · rcases h with ⟨h1, h2⟩ | ⟨h1, h2⟩ <;> simp [fuzzyMatch, h1, h2]
  · have hne1 : ¬(str1 = [] ∧ str2 = []) := fun h => h1 h.1
    have hne2 : ¬(str1 = [] ∨ str2 = []) := by
      rintro (h | h)
      · exact h1 h
      · exact h2 h
    have hmax : ¬(max str1.length str2.length = 0) := by
      have h1' : str1.length ≠ 0 := fun h => h1 (List.length_eq_zero.mp h)
      omega
    unfold fuzzyMatch
    rw [if_neg hne1, if_neg hne2]
    simp only []
    rw [if_neg hmax]
    simp only [ge_iff_le, decide_eq_true_eq, Nat.cast_max]

/-- Witness for C3 at `str1 = "a"`, `str2 = "ab"`, `t = 1/2` (distance 1,
max length 2, similarity 1/2). -/
theorem fuzzyMatch_spec_witness :
    fuzzyMatch "a".toList "ab".toList (1 / 2) = true := by
  have hd : calculateLevenshteinDistance "a".toList "ab".toList = 1 := by
    simp [calculateLevenshteinDistance, levCell]
  exact ((fuzzyMatch_spec "a".toList "ab".toList (1 / 2)).2.2 (by decide)
    (by decide)).mpr (by rw [hd]; norm_num)

/-! ### Per-field dispatch: claim C4 -/

/-- C4's claim-side default normalization, written from the claim's words:
delete all whitespace, dot, and hyphen characters and lower-case the rest
(stated with the deletion applied first; the code lower-cases first). -/
def normOtherSpec (val : List Char) : List Char :=
  (val.filter keepOther).map Char.toLower

/-- C4's claim-side per-field rule, written from the claim's words. -/
def fieldMatchSpec (key : FieldKey) (val1 val2 : List Char) : Bool :=
  match key with
  | .beneficiaryName => fuzzyMatch val1 val2 (7 / 10)
  | .bankName => fuzzyMatch val1 val2 (7 / 10)
  | .goodsDescription => fuzzyMatch val1 val2 (8 / 10)
  | .accountNumber => compareAccountNumbers val1 val2
  | _ => decide (normOtherSpec val1 = normOtherSpec val2)

lemma keepOther_ofNat_upper (m : Nat) (h1 : 65 ≤ m) (h2 : m ≤ 90) :
    keepOther (Char.ofNat (m + 32)) = true ∧ keepOther (Char.ofNat m) = true := by
  interval_cases m <;> decide

lemma keepOther_toLower (c : Char) : keepOther c.toLower = keepOther c := by
  simp only [Char.toLower]
  by_cases h : c.toNat ≥ 65 ∧ c.toNat ≤ 90
  · rw [if_pos h]
    have hc := Char.ofNat_toNat c
    conv_rhs => rw [← hc]
    rw [(keepOther_ofNat_upper c.toNat h.1 h.2).1,
      (keepOther_ofNat_upper c.toNat h.1 h.2).2]
  · rw [if_neg h]

lemma normOther_eq_spec (val : List Char) : normOther val = normOtherSpec val := by
  unfold normOther normOtherSpec
  induction val with
  | nil => rfl
  | cons c cs ih =>
    simp only [List.map_cons, List.filter_cons, keepOther_toLower]
    by_cases h : keepOther c
    · simp [h, ih]
    · simp [h, ih]

/-- **C4** — the per-field match flag follows the claim's rule table: fuzzy
matching with tolerance 0.7 for the name-like fields, 0.8 for the goods
description, the account-number comparison for the account number, and
normalized exact equality for every other field. -/
theorem fieldMatch_follows_spec :
    ∀ key val1 val2, fieldMatch key val1 val2 = fieldMatchSpec key val1 val2 := by
  intro key v1 v2
  cases key <;> simp [fieldMatch, fieldMatchSpec, normOther_eq_spec]

/-! ### Diff machinery: claims C1, C5, C6, C7 -/

/-- Concatenation, in order, of the values of the spans satisfying `p`. -/
def spanValues (p : DiffSpan → Bool) : List DiffSpan → List Char
  | [] => []
  | s :: rest => (if p s then s.value else []) ++ spanValues p rest

/-- Total number of characters in the spans satisfying `p`. -/
def spanCount (p : DiffSpan → Bool) : List DiffSpan → Nat
  | [] => 0
  | s :: rest => (if p s then s.value.length else 0) + spanCount p rest

/-- Concatenation of all span values, in order. -/
def joinSpans : List DiffSpan → List Char
  | [] => []
  | s :: rest => s.value ++ joinSpans rest

/-- Spans not tagged `removed` (these reconstruct the new string). -/
def notRemoved (s : DiffSpan) : Bool := !s.removed

/-- Spans not tagged `added` (these reconstruct the old string). -/
def notAdded (s : DiffSpan) : Bool := !s.added

/-- Unchanged spans (neither `added` nor `removed`). -/
def isUnchanged (s : DiffSpan) : Bool := !s.added && !s.removed

lemma spanValues_append (p : DiffSpan → Bool) (l1 l2 : List DiffSpan) :
    spanValues p (l1 ++ l2) = spanValues p l1 ++ spanValues p l2 := by
  induction l1 with
  | nil => rfl
  | cons s rest ih => simp [spanValues, ih, List.append_assoc]

lemma spanCount_append (p : DiffSpan → Bool) (l1 l2 : List DiffSpan) :
    spanCount p (l1 ++ l2) = spanCount p l1 + spanCount p l2 := by
  induction l1 with
  | nil => simp [spanCount]
  | cons s rest ih => simp [spanCount, ih, Nat.add_assoc]

lemma spanValues_length (p : DiffSpan → Bool) (l : List DiffSpan) :
    (spanValues p l).length = spanCount p l := by
  induction l with
  | nil => rfl
  | cons s rest ih =>
    by_cases h : p s <;> simp [spanValues, spanCount, h, ih]

lemma take_succ_getD (l : List Char) (i : Nat) (h : i < l.length) :
    l.take (i + 1) = l.take i ++ [l.getD i 'a'] := by
  rw [List.take_succ, List.getD_eq_getElem l 'a' h, List.getElem?_eq_getElem h]
  rfl

lemma take_sublist_succ (l : List Char) (i : Nat) :
    (l.take i).Sublist (l.take (i + 1)) := by
  have h := (List.take_prefix i (l.take (i + 1))).sublist
  rwa [List.take_take, min_eq_left (Nat.le_succ i)] at h

lemma sublist_snoc_iff (s v : List Char) (x : Char) :
    s.Sublist (v ++ [x]) ↔ s.Sublist v ∨ ∃ t, s = t ++ [x] ∧ t.Sublist v := by
  rw [List.sublist_append_iff]
  constructor
  · rintro ⟨l1, l2, rfl, h1, h2⟩
    rcases List.sublist_singleton.mp h2 with rfl | rfl
    · exact Or.inl (by simpa using h1)
    · exact Or.inr ⟨l1, rfl, h1⟩
  · rintro (h | ⟨t, rfl, h⟩)
    · exact ⟨s, [], by simp, h, List.nil_sublist _⟩
    · exact ⟨t, [x], rfl, h, List.Sublist.refl _⟩

lemma backtrace_reconstruct (o n : List Char) :
    ∀ N i j, i + j ≤ N → i ≤ o.length → j ≤ n.length →
      spanValues notRemoved (backtrace o n i j) = n.take j ∧
      spanValues notAdded (backtrace o n i j) = o.take i := by
  intro N
  induction N with
  | zero =>
    intro i j h hi hj
    obtain ⟨rfl, rfl⟩ : i = 0 ∧ j = 0 := by omega
    simp [backtrace, spanValues]
  | succ N ih =>
    intro i j h hi hj
    match i, j with
    | 0, 0 => simp [backtrace, spanValues]
    | 0, j + 1 =>
      have hrec := ih 0 j (by omega) (by omega) (by omega)
      simp only [backtrace, spanValues_append]
      refine ⟨?_, ?_⟩
      · rw [hrec.1, take_succ_getD n j (by omega)]
        simp [spanValues, notRemoved]
      · rw [hrec.2]
        simp [spanValues, notAdded]
    | i + 1, 0 =>
      have hrec := ih i 0 (by omega) (by omega) (by omega)
      simp only [backtrace, spanValues_append]
      refine ⟨?_, ?_⟩
      · rw [hrec.1]
        simp [spanValues, notRemoved]
      · rw [hrec.2, take_succ_getD o i (by omega)]
        simp [spanValues, notAdded]
    | i + 1, j + 1 =>
      simp only [backtrace]
      by_cases hc : o.getD i 'a' = n.getD j 'a'
      · rw [if_pos hc]
        have hrec := ih i j (by omega) (by omega) (by omega)
        rw [spanValues_append, spanValues_append]
        refine ⟨?_, ?_⟩
        · rw [hrec.1, take_succ_getD n j (by omega), hc]
          simp [spanValues, notRemoved]
        · rw [hrec.2, take_succ_getD o i (by omega)]
          simp [spanValues, notAdded]
      · rw [if_neg hc]
        by_cases hg : lcsLen o n (i + 1) j ≥ lcsLen o n i (j + 1)
        · rw [if_pos hg]
          have hrec := ih (i + 1) j (by omega) (by omega) (by omega)
          rw [spanValues_append, spanValues_append]
          refine ⟨?_, ?_⟩
          · rw [hrec.1, take_succ_getD n j (by omega)]
            simp [spanValues, notRemoved]
          · rw [hrec.2]
            simp [spanValues, notAdded]
        · rw [if_neg hg]
          have hrec := ih i (j + 1) (by omega) (by omega) (by omega)
          rw [spanValues_append, spanValues_append]
          refine ⟨?_, ?_⟩
          · rw [hrec.1]
            simp [spanValues, notRemoved]
          · rw [hrec.2, take_succ_getD o i (by omega)]
            simp [spanValues, notAdded]

lemma coalesce_spanValues (p : DiffSpan → Bool)
    (hp : ∀ v v' (a r : Bool), p ⟨v, a, r⟩ = p ⟨v', a, r⟩) :
    ∀ N (l : List DiffSpan), l.length ≤ N →
      spanValues p (coalesce l) = spanValues p l := by
  intro N
  induction N with
  | zero =>
    intro l h
    obtain rfl : l = [] := List.length_eq_zero.mp (by omega)
    simp [coalesce]
  | succ N ih =>
    intro l h
    match l with
    | [] => simp [coalesce]
    | [s] => simp [coalesce]
    | s :: t :: rest =>
      simp only [coalesce]
      by_cases hst : s.added = t.added ∧ s.removed = t.removed
      · rw [if_pos hst, ih _ (by simpa using Nat.le_of_succ_le_succ h)]
        have hps : p ⟨s.value ++ t.value, s.added, s.removed⟩ = p s := hp _ s.value _ _
        have hpt : p t = p s := by
          calc p t = p ⟨t.value, t.added, t.removed⟩ := rfl
          _ = p ⟨t.value, s.added, s.removed⟩ := by rw [hst.1, hst.2]
          _ = p s := hp _ s.value _ _
        by_cases hs : p s = true
        · simp [spanValues, hps, hpt, hs, List.append_assoc]
        · simp only [Bool.not_eq_true] at hs
          simp [spanValues, hps, hpt, hs]
      · rw [if_neg hst]
        simp only [spanValues]
        rw [ih _ (Nat.le_of_succ_le_succ h)]
        simp [spanValues]

lemma coalesce_spanCount (p : DiffSpan → Bool)
    (hp : ∀ v v' (a r : Bool), p ⟨v, a, r⟩ = p ⟨v', a, r⟩) :
    ∀ N (l : List DiffSpan), l.length ≤ N →
      spanCount p (coalesce l) = spanCount p l := by
  intro N
  induction N with
  | zero =>
    intro l h
    obtain rfl : l = [] := List.length_eq_zero.mp (by omega)
    simp [coalesce]
  | succ N ih =>
    intro l h
    match l with
    | [] => simp [coalesce]
    | [s] => simp [coalesce]
    | s :: t :: rest =>
      simp only [coalesce]
      by_cases hst : s.added = t.added ∧ s.removed = t.removed
      · rw [if_pos hst, ih _ (by simpa using Nat.le_of_succ_le_succ h)]
        have hps : p ⟨s.value ++ t.value, s.added, s.removed⟩ = p s := hp _ s.value _ _
        have hpt : p t = p s := by
          calc p t = p ⟨t.value, t.added, t.removed⟩ := rfl
          _ = p ⟨t.value, s.added, s.removed⟩ := by rw [hst.1, hst.2]
          _ = p s := hp _ s.value _ _
        by_cases hs : p s = true
        · simp [spanCount, hps, hpt, hs]
          omega
        · simp only [Bool.not_eq_true] at hs
          simp [spanCount, hps, hpt, hs]
      · rw [if_neg hst]
        simp only [spanCount]
        rw [ih _ (Nat.le_of_succ_le_succ h)]
        simp [spanCount]

lemma coalesce_forall (P : DiffSpan → Prop)
    (hmerge : ∀ s t : DiffSpan, P s → P t → s.added = t.added →
      s.removed = t.removed → P ⟨s.value ++ t.value, s.added, s.removed⟩) :
    ∀ N (l : List DiffSpan), l.length ≤ N → (∀ s ∈ l, P s) →
      ∀ s ∈ coalesce l, P s := by
  intro N
  induction N with
  | zero =>
    intro l h
    obtain rfl : l = [] := List.length_eq_zero.mp (by omega)
    simp [coalesce]
  | succ N ih =>
    intro l h hall
    match l with
    | [] => simp [coalesce]
    | [s] => simpa [coalesce] using hall
    | s :: t :: rest =>
      simp only [coalesce]
      by_cases hst : s.added = t.added ∧ s.removed = t.removed
      · rw [if_pos hst]
        refine ih _ (by simpa using Nat.le_of_succ_le_succ h) ?_
        intro u hu
        rcases hu with _ | hu
        · exact hmerge s t (hall s (by simp)) (hall t (by simp)) hst.1 hst.2
        · exact hall u (by simp [List.mem_cons]; tauto)
      · rw [if_neg hst]
        intro u hu
        rcases List.mem_cons.mp hu with rfl | hu
        · exact hall u (by simp)
        · exact ih _ (Nat.le_of_succ_le_succ h)
            (fun v hv => hall v (List.mem_cons_of_mem _ hv)) u hu

lemma coalesce_head_flags :
    ∀ N (s : DiffSpan) (rest : List DiffSpan), rest.length ≤ N →
      ∃ v tl, coalesce (s :: rest) = ⟨v, s.added, s.removed⟩ :: tl := by
  intro N
  induction N with
  | zero =>
    intro s rest h
    obtain rfl : rest = [] := List.length_eq_zero.mp (by omega)
    exact ⟨s.value, [], by simp [coalesce]⟩
  | succ N ih =>
    intro s rest h
    match rest with
    | [] => exact ⟨s.value, [], by simp [coalesce]⟩
    | t :: rest' =>
      simp only [coalesce]
      by_cases hst : s.added = t.added ∧ s.removed = t.removed
      · rw [if_pos hst]
        exact ih ⟨s.value ++ t.value, s.added, s.removed⟩ rest'
          (Nat.le_of_succ_le_succ h)
      · rw [if_neg hst]
        exact ⟨s.value, coalesce (t :: rest'), rfl⟩

lemma coalesce_chain :
    ∀ N (l : List DiffSpan), l.length ≤ N →
      List.Chain' (fun s t => ¬(s.added = t.added ∧ s.removed = t.removed))
        (coalesce l) := by
  intro N
  induction N with
  | zero =>
    intro l h
    obtain rfl : l = [] := List.length_eq_zero.mp (by omega)
    simp [coalesce]
  | succ N ih =>
    intro l h
    match l with
    | [] => simp [coalesce]
    | [s] => simp [coalesce]
    | s :: t :: rest =>
      simp only [coalesce]
      by_cases hst : s.added = t.added ∧ s.removed = t.removed
      · rw [if_pos hst]
        exact ih _ (by simpa using Nat.le_of_succ_le_succ h)
      · rw [if_neg hst]
        obtain ⟨v, tl, heq⟩ :=
          coalesce_head_flags (rest.length) t rest le_rfl
        rw [List.chain'_cons', heq]
        refine ⟨?_, heq ▸ ih _ (Nat.le_of_succ_le_succ h)⟩
        intro y hy
        simp only [List.head?_cons, Option.mem_def, Option.some.injEq] at hy
        subst hy
        simpa using hst

lemma lcsLen_le (o n : List Char) :
    ∀ N i j, i + j ≤ N → lcsLen o n i j ≤ i ∧ lcsLen o n i j ≤ j := by
  intro N
  induction N with
  | zero =>
    intro i j h
    obtain ⟨rfl, rfl⟩ : i = 0 ∧ j = 0 := by omega
    simp [lcsLen]
  | succ N ih =>
    intro i j h
    match i, j with
    | 0, j => simp [lcsLen]
    | i + 1, 0 => simp [lcsLen]
    | i + 1, j + 1 =>
      simp only [lcsLen]
      have h1 := ih i j (by omega)
      have h2 := ih i (j + 1) (by omega)
      have h3 := ih (i + 1) j (by omega)
      by_cases hc : o.getD i 'a' = n.getD j 'a'
      · rw [if_pos hc]
        omega
      · rw [if_neg hc]
        omega

lemma lcsLen_zero_right (o n : List Char) (i : Nat) : lcsLen o n i 0 = 0 := by
  cases i <;> simp [lcsLen]

lemma backtrace_counts (o n : List Char) :
    ∀ N i j, i + j ≤ N →
      spanCount isUnchanged (backtrace o n i j) = lcsLen o n i j ∧
      spanCount (fun s => s.removed) (backtrace o n i j) = i - lcsLen o n i j ∧
      spanCount (fun s => s.added) (backtrace o n i j) = j - lcsLen o n i j := by
  intro N
  induction N with
  | zero =>
    intro i j h
    obtain ⟨rfl, rfl⟩ : i = 0 ∧ j = 0 := by omega
    simp [backtrace, lcsLen, spanCount]
  | succ N ih =>
    intro i j h
    match i, j with
    | 0, 0 => simp [backtrace, lcsLen, spanCount]
    | 0, j + 1 =>
      have hrec := ih 0 j (by omega)
      simp only [backtrace, spanCount_append, lcsLen] at hrec ⊢
      simp [spanCount, isUnchanged] at hrec ⊢
      omega
    | i + 1, 0 =>
      have hrec := ih i 0 (by omega)
      simp only [backtrace, spanCount_append, lcsLen_zero_right] at hrec ⊢
      simp [spanCount, isUnchanged] at hrec ⊢
      omega
    | i + 1, j + 1 =>
      simp only [backtrace, lcsLen]
      by_cases hc : o.getD i 'a' = n.getD j 'a'
      · rw [if_pos hc, if_pos hc]
        have hrec := ih i j (by omega)
        have hle := lcsLen_le o n (i + j) i j le_rfl
        simp only [spanCount_append]
        simp [spanCount, isUnchanged]
        omega
      · rw [if_neg hc, if_neg hc]
        by_cases hg : lcsLen o n (i + 1) j ≥ lcsLen o n i (j + 1)
        · rw [if_pos hg, Nat.max_eq_right hg]
          have hrec := ih (i + 1) j (by omega)
          have hle := lcsLen_le o n (i + 1 + j) (i + 1) j le_rfl
          simp only [spanCount_append]
          simp [spanCount, isUnchanged]
          omega
        · rw [if_neg hg, Nat.max_eq_left (by omega)]
          have hrec := ih i (j + 1) (by omega)
          have hle := lcsLen_le o n (i + (j + 1)) i (j + 1) le_rfl
          simp only [spanCount_append]
          simp [spanCount, isUnchanged]
          omega

lemma backtrace_flags (o n : List Char) :
    ∀ N i j, i + j ≤ N → ∀ s ∈ backtrace o n i j,
      ¬(s.added = true ∧ s.removed = true) ∧ s.value ≠ [] := by
  intro N
  induction N with
  | zero =>
    intro i j h
    obtain ⟨rfl, rfl⟩ : i = 0 ∧ j = 0 := by omega
    simp [backtrace]
  | succ N ih =>
    intro i j h s hs
    match i, j with
    | 0, 0 => simp [backtrace] at hs
    | 0, j + 1 =>
      simp only [backtrace, List.mem_append] at hs
      rcases hs with hs | hs
      · exact ih 0 j (by omega) s hs
      · simp only [List.mem_singleton] at hs
        subst hs
        simp
    | i + 1, 0 =>
      simp only [backtrace, List.mem_append] at hs
      rcases hs with hs | hs
      · exact ih i 0 (by omega) s hs
      · simp only [List.mem_singleton] at hs
        subst hs
        simp
    | i + 1, j + 1 =>
      simp only [backtrace] at hs
      by_cases hc : o.getD i 'a' = n.getD j 'a'
      · rw [if_pos hc] at hs
        rcases List.mem_append.mp hs with hs | hs
        · exact ih i j (by omega) s hs
        · simp only [List.mem_singleton] at hs
          subst hs
          simp
      · rw [if_neg hc] at hs
        by_cases hg : lcsLen o n (i + 1) j ≥ lcsLen o n i (j + 1)
        · rw [if_pos hg] at hs
          rcases List.mem_append.mp hs with hs | hs
          · exact ih (i + 1) j (by omega) s hs
          · simp only [List.mem_singleton] at hs
            subst hs
            simp
        · rw [if_neg hg] at hs
          rcases List.mem_append.mp hs with hs | hs
          · exact ih i (j + 1) (by omega) s hs
          · simp only [List.mem_singleton] at hs
            subst hs
            simp

lemma backtrace_zero_left (o n : List Char) :
    ∀ j, ∀ s ∈ backtrace o n 0 j, s.added = true ∧ s.removed = false := by
  intro j
  induction j with
  | zero => simp [backtrace]
  | succ j ih =>
    intro s hs
    simp only [backtrace, List.mem_append] at hs
    rcases hs with hs | hs
    · exact ih s hs
    · simp only [List.mem_singleton] at hs
      subst hs
      simp

lemma backtrace_zero_right (o n : List Char) :
    ∀ i, ∀ s ∈ backtrace o n i 0, s.removed = true ∧ s.added = false := by
  intro i
  induction i with
  | zero => simp [backtrace]
  | succ i ih =>
    intro s hs
    simp only [backtrace, List.mem_append] at hs
    rcases hs with hs | hs
    · exact ih s hs
    · simp only [List.mem_singleton] at hs
      subst hs
      simp

lemma backtrace_unchanged_sublist (o n : List Char) :
    ∀ N i j, i + j ≤ N → i ≤ o.length → j ≤ n.length →
      (spanValues isUnchanged (backtrace o n i j)).Sublist (o.take i) ∧
      (spanValues isUnchanged (backtrace o n i j)).Sublist (n.take j) := by
  intro N
  induction N with
  | zero =>
    intro i j h hi hj
    obtain ⟨rfl, rfl⟩ : i = 0 ∧ j = 0 := by omega
    simp [backtrace, spanValues]
  | succ N ih =>
    intro i j h hi hj
    match i, j with
    | 0, 0 => simp [backtrace, spanValues]
    | 0, j + 1 =>
      have hrec := ih 0 j (by omega) (by omega) (by omega)
      simp only [backtrace, spanValues_append]
      have hsv : spanValues isUnchanged [(⟨[n.getD j 'a'], true, false⟩ : DiffSpan)] = [] := by
        simp [spanValues, isUnchanged]
      rw [hsv, List.append_nil]
      exact ⟨hrec.1, hrec.2.trans (take_sublist_succ n j)⟩
    | i + 1, 0 =>
      have hrec := ih i 0 (by omega) (by omega) (by omega)
      simp only [backtrace, spanValues_append]
      have hsv : spanValues isUnchanged [(⟨[o.getD i 'a'], false, true⟩ : DiffSpan)] = [] := by
        simp [spanValues, isUnchanged]
      rw [hsv, List.append_nil]
      exact ⟨hrec.1.trans (take_sublist_succ o i), hrec.2⟩
    | i + 1, j + 1 =>
      simp only [backtrace]
      by_cases hc : o.getD i 'a' = n.getD j 'a'
      · rw [if_pos hc]
        have hrec := ih i j (by omega) (by omega) (by omega)
        rw [spanValues_append]
        have hsv : spanValues isUnchanged [(⟨[o.getD i 'a'], false, false⟩ : DiffSpan)]
            = [o.getD i 'a'] := by
          simp [spanValues, isUnchanged]
        rw [hsv]
        constructor
        · rw [take_succ_getD o i (by omega)]
          exact hrec.1.append (List.Sublist.refl _)
        · rw [take_succ_getD n j (by omega)]
          have : [o.getD i 'a'] = [n.getD j 'a'] := by rw [hc]
          rw [this]
          exact hrec.2.append (List.Sublist.refl _)
      · rw [if_neg hc]
        by_cases hg : lcsLen o n (i + 1) j ≥ lcsLen o n i (j + 1)
        · rw [if_pos hg]
          have hrec := ih (i + 1) j (by omega) (by omega) (by omega)
          rw [spanValues_append]
          have hsv : spanValues isUnchanged [(⟨[n.getD j 'a'], true, false⟩ : DiffSpan)]
              = [] := by
            simp [spanValues, isUnchanged]
          rw [hsv, List.append_nil]
          exact ⟨hrec.1, hrec.2.trans (take_sublist_succ n j)⟩
        · rw [if_neg hg]
          have hrec := ih i (j + 1) (by omega) (by omega) (by omega)
          rw [spanValues_append]
          have hsv : spanValues isUnchanged [(⟨[o.getD i 'a'], false, true⟩ : DiffSpan)]
              = [] := by
            simp [spanValues, isUnchanged]
          rw [hsv, List.append_nil]
          exact ⟨hrec.1.trans (take_sublist_succ o i), hrec.2⟩

lemma length_le_lcsLen (o n : List Char) :
    ∀ N i j (s : List Char), i + j ≤ N → i ≤ o.length → j ≤ n.length →
      s.Sublist (o.take i) → s.Sublist (n.take j) →
      s.length ≤ lcsLen o n i j := by
  intro N
  induction N with
  | zero =>
    intro i j s h hi hj hs1 hs2
    obtain ⟨rfl, rfl⟩ : i = 0 ∧ j = 0 := by omega
    obtain rfl : s = [] := List.sublist_nil.mp (by simpa using hs1)
    simp
  | succ N ih =>
    intro i j s h hi hj hs1 hs2
    match i, j with
    | 0, j =>
      obtain rfl : s = [] := List.sublist_nil.mp (by simpa using hs1)
      simp
    | i + 1, 0 =>
      obtain rfl : s = [] := List.sublist_nil.mp (by simpa using hs2)
      simp
    | i + 1, j + 1 =>
      rcases List.eq_nil_or_concat s with rfl | ⟨L, c, rfl⟩
      · simp
      rw [List.concat_eq_append] at hs1 hs2 ⊢
      rw [take_succ_getD o i (by omega)] at hs1
      rw [take_succ_getD n j (by omega)] at hs2
      simp only [lcsLen, List.length_append, List.length_singleton]
      by_cases hc : o.getD i 'a' = n.getD j 'a'
      · rw [if_pos hc]
        have hL1 : L.Sublist (o.take i) := by
          rcases (sublist_snoc_iff _ _ _).mp hs1 with h' | ⟨t, ht, h'⟩
          · exact (List.sublist_append_left L [c]).trans h'
          · obtain ⟨rfl, -⟩ := List.append_inj' ht rfl
            exact h'
        have hL2 : L.Sublist (n.take j) := by
          rcases (sublist_snoc_iff _ _ _).mp hs2 with h' | ⟨t, ht, h'⟩
          · exact (List.sublist_append_left L [c]).trans h'
          · obtain ⟨rfl, -⟩ := List.append_inj' ht rfl
            exact h'
        have := ih i j L (by omega) (by omega) (by omega) hL1 hL2
        omega
      · rw [if_neg hc]
        by_cases hca : c = o.getD i 'a'
        · have hcb : c ≠ n.getD j 'a' := fun hb => hc (hca ▸ hb)
          have hsn : (L ++ [c]).Sublist (n.take j) := by
            rcases (sublist_snoc_iff _ _ _).mp hs2 with h' | ⟨t, ht, h'⟩
            · exact h'
            · obtain ⟨-, heq⟩ := List.append_inj' ht rfl
              exact absurd (List.singleton_inj.mp heq) hcb
          have hso : (L ++ [c]).Sublist (o.take (i + 1)) := by
            rw [take_succ_getD o i (by omega)]
            exact hs1
          have := ih (i + 1) j (L ++ [c]) (by omega) (by omega) (by omega) hso hsn
          simp only [List.length_append, List.length_singleton] at this
          omega
        · have hsol : (L ++ [c]).Sublist (o.take i) := by
            rcases (sublist_snoc_iff _ _ _).mp hs1 with h' | ⟨t, ht, h'⟩
            · exact h'
            · obtain ⟨-, heq⟩ := List.append_inj' ht rfl
              exact absurd (List.singleton_inj.mp heq) hca
          have hsn : (L ++ [c]).Sublist (n.take (j + 1)) := by
            rw [take_succ_getD n j (by omega)]
            exact hs2
          have := ih i (j + 1) (L ++ [c]) (by omega) (by omega) (by omega) hsol hsn
          simp only [List.length_append, List.length_singleton] at this
          omega

lemma diffStrings_reconstruct_aux (o n : List Char) :
    spanValues notRemoved (diffStrings o n) = n ∧
    spanValues notAdded (diffStrings o n) = o := by
  unfold diffStrings
  rw [coalesce_spanValues notRemoved (fun v v' a r => rfl) _ _ le_rfl,
    coalesce_spanValues notAdded (fun v v' a r => rfl) _ _ le_rfl]
  have h := backtrace_reconstruct o n (o.length + n.length) o.length n.length
    le_rfl le_rfl le_rfl
  rwa [List.take_length, List.take_length] at h

/-- **C1** — the spans of `diffStrings old new` reconstruct both inputs:
the values of the spans not tagged `removed` concatenate to `new`, and the
values of the spans not tagged `added` concatenate to `old`. -/
theorem diffStrings_reconstruct (o n : List Char) :
    spanValues notRemoved (diffStrings o n) = n ∧
    spanValues notAdded (diffStrings o n) = o :=
  diffStrings_reconstruct_aux o n

/-- **C5** — the diff is a minimal edit script: the number of characters in
unchanged spans is the length of a longest common subsequence of the inputs
(it is attained by a common subsequence and bounds every common
subsequence), and the removed/added character counts are
`len(old) - LCS` and `len(new) - LCS`. -/
theorem diffStrings_minimal (o n : List Char) :
    (∃ s : List Char, s.Sublist o ∧ s.Sublist n ∧
        s.length = spanCount isUnchanged (diffStrings o n))
    ∧ (∀ s : List Char, s.Sublist o → s.Sublist n →
        s.length ≤ spanCount isUnchanged (diffStrings o n))
    ∧ spanCount (fun s => s.removed) (diffStrings o n)
        = o.length - spanCount isUnchanged (diffStrings o n)
    ∧ spanCount (fun s => s.added) (diffStrings o n)
        = n.length - spanCount isUnchanged (diffStrings o n) := by
  have hcounts := backtrace_counts o n (o.length + n.length) o.length n.length le_rfl
  have hcu : spanCount isUnchanged (diffStrings o n)
      = lcsLen o n o.length n.length := by
    unfold diffStrings
    rw [coalesce_spanCount isUnchanged (fun v v' a r => rfl) _ _ le_rfl]
    exact hcounts.1
  have hcr : spanCount (fun s => s.removed) (diffStrings o n)
      = o.length - lcsLen o n o.length n.length := by
    unfold diffStrings
    rw [coalesce_spanCount (fun s => s.removed) (fun v v' a r => rfl) _ _ le_rfl]
    exact hcounts.2.1
  have hcad : spanCount (fun s => s.added) (diffStrings o n)
      = n.length - lcsLen o n o.length n.length := by
    unfold diffStrings
    rw [coalesce_spanCount (fun s => s.added) (fun v v' a r => rfl) _ _ le_rfl]
    exact hcounts.2.2
  refine ⟨?_, ?_, by rw [hcr, hcu], by rw [hcad, hcu]⟩
  · refine ⟨spanValues isUnchanged (backtrace o n o.length n.length), ?_, ?_, ?_⟩
    · have h := (backtrace_unchanged_sublist o n (o.length + n.length)
        o.length n.length le_rfl le_rfl le_rfl).1
      rwa [List.take_length] at h
    · have h := (backtrace_unchanged_sublist o n (o.length + n.length)
        o.length n.length le_rfl le_rfl le_rfl).2
      rwa [List.take_length] at h
    · rw [spanValues_length, hcounts.1, hcu]
  · intro s hs1 hs2
    rw [hcu]
    exact length_le_lcsLen o n (o.length + n.length) o.length n.length s
      le_rfl le_rfl le_rfl (by rwa [List.take_length]) (by rwa [List.take_length])

/-- Witness for C5 at `old = "abc"`, `new = "axc"` against the common
subsequence `"ac"`. -/
theorem diffStrings_minimal_witness :
    (['a', 'c'] : List Char).Sublist ['a', 'b', 'c'] ∧
    (['a', 'c'] : List Char).Sublist ['a', 'x', 'c'] ∧
    (['a', 'c'] : List Char).length
      ≤ spanCount isUnchanged (diffStrings ['a', 'b', 'c'] ['a', 'x', 'c']) :=
  ⟨by decide, by decide,
    (diffStrings_minimal ['a', 'b', 'c'] ['a', 'x', 'c']).2.1 ['a', 'c']
      (by decide) (by decide)⟩

/-- **C6** — every span of the diff carries at most one of the `added` /
`removed` tags, has a non-empty value, and no two consecutive spans share
the same tag pair (each span is a maximal run). -/
theorem diffStrings_span_invariants (o n : List Char) :
    (∀ s ∈ diffStrings o n, ¬(s.added = true ∧ s.removed = true) ∧ s.value ≠ [])
    ∧ List.Chain' (fun s t => ¬(s.added = t.added ∧ s.removed = t.removed))
        (diffStrings o n) := by
  constructor
  · intro s hs
    unfold diffStrings at hs
    refine coalesce_forall
      (fun u => ¬(u.added = true ∧ u.removed = true) ∧ u.value ≠ [])
      ?_ _ _ le_rfl ?_ s hs
    · intro u t hu ht ha hr
      exact ⟨hu.1, fun heq => hu.2 (List.append_eq_nil.mp heq).1⟩
    · exact backtrace_flags o n (o.length + n.length) o.length n.length le_rfl
  · exact coalesce_chain _ _ le_rfl

/-- Witness for C6: the unchanged span `"a"` belongs to
`diffStrings "ab" "ac"` and is not double-tagged. -/
theorem diffStrings_span_invariants_witness :
    (⟨['a'], false, false⟩ : DiffSpan) ∈ diffStrings ['a', 'b'] ['a', 'c'] ∧
    ¬((⟨['a'], false, false⟩ : DiffSpan).added = true ∧
      (⟨['a'], false, false⟩ : DiffSpan).removed = true) := by
  have hm : (⟨['a'], false, false⟩ : DiffSpan) ∈ diffStrings ['a', 'b'] ['a', 'c'] := by
    simp [diffStrings, backtrace, lcsLen, coalesce]
  exact ⟨hm, ((diffStrings_span_invariants ['a', 'b'] ['a', 'c']).1 _ hm).1⟩

lemma joinSpans_eq_spanValues (p : DiffSpan → Bool) :
    ∀ l : List DiffSpan, (∀ s ∈ l, p s = true) → joinSpans l = spanValues p l := by
  intro l
  induction l with
  | nil => intro _; rfl
  | cons s rest ih =>
    intro hall
    simp only [joinSpans, spanValues, hall s (List.mem_cons_self s rest), if_true]
    rw [ih fun t ht => hall t (List.mem_cons_of_mem _ ht)]

/-- **C7** — diffing against an empty side: `diffStrings "" new` is
all-added and concatenates to `new`, `diffStrings old ""` is all-removed and
concatenates to `old`, and `diffStrings "" ""` is empty. -/
theorem diffStrings_empty_cases (o n : List Char) :
    (n ≠ [] → (∀ s ∈ diffStrings [] n, s.added = true ∧ s.removed = false)
        ∧ joinSpans (diffStrings [] n) = n)
    ∧ (o ≠ [] → (∀ s ∈ diffStrings o [], s.removed = true ∧ s.added = false)
        ∧ joinSpans (diffStrings o []) = o)
    ∧ diffStrings ([] : List Char) ([] : List Char) = [] := by
  refine ⟨fun hn => ?_, fun ho => ?_, by simp [diffStrings, backtrace, coalesce]⟩
  · have hall : ∀ s ∈ diffStrings [] n, s.added = true ∧ s.removed = false := by
      intro s hs
      unfold diffStrings at hs
      refine coalesce_forall (fun u => u.added = true ∧ u.removed = false)
        ?_ _ _ le_rfl ?_ s hs
      · intro u t hu ht ha hr
        exact ⟨hu.1, hu.2⟩
      · exact backtrace_zero_left [] n n.length
    refine ⟨hall, ?_⟩
    rw [joinSpans_eq_spanValues notRemoved _
      (fun s hs => by simp [notRemoved, (hall s hs).2]),
      (diffStrings_reconstruct_aux [] n).1]
  · have hall : ∀ s ∈ diffStrings o [], s.removed = true ∧ s.added = false := by
      intro s hs
      unfold diffStrings at hs
      refine coalesce_forall (fun u => u.removed = true ∧ u.added = false)
        ?_ _ _ le_rfl ?_ s hs
      · intro u t hu ht ha hr
        exact ⟨hu.1, hu.2⟩
      · exact backtrace_zero_right o [] o.length
    refine ⟨hall, ?_⟩
    rw [joinSpans_eq_spanValues notAdded _
      (fun s hs => by simp [notAdded, (hall s hs).2]),
      (diffStrings_reconstruct_aux o []).2]

/-- Witness for C7 at `new = "xy"` and `old = "ab"`. -/
theorem diffStrings_empty_cases_witness :
    joinSpans (diffStrings [] ['x', 'y']) = ['x', 'y'] ∧
    joinSpans (diffStrings ['a', 'b'] []) = ['a', 'b'] :=
  ⟨((diffStrings_empty_cases ['a', 'b'] ['x', 'y']).1 (by decide)).2,
    ((diffStrings_empty_cases ['a', 'b'] ['x', 'y']).2.1 (by decide)).2⟩

end BankDoc
